import Mathlib

/-!
Shallow embedding of the HD-wallet-Rust BIP32 implementation
(src/secp256k1.rs, src/keys.rs, src/bip32.rs, src/path.rs,
src/child_number.rs, src/error.rs, src/version.rs).

Modelling conventions:
  * Rust `BigInt` is `Int`; byte vectors (`Vec<u8>`, `[u8; N]`) are `List Nat`
    with each entry a byte value.
  * Rust `%` and `/` on `BigInt` truncate toward zero, so they are `Int.tmod`
    and `Int.tdiv`.
  * A Rust panic (`unwrap` failure, out-of-range slice) is `Option.none`; a
    function that can both panic and return a typed `Result` is modelled as
    `Option (Except Error _)`.
  * The external crates `hmac`/`sha2` (HMAC-SHA512), `sha2::Sha256` and
    `ripemd160` are uninterpreted oracle functions bundled in `Oracles`;
    everything this repository computes around them is embedded faithfully.
  * Unbounded recursion in the source (`extended_euclid`, the
    `double_and_add` loop) is given explicit fuel that provably dominates the
    recursion depth, so the definitions stay executable by the kernel.
-/

set_option maxRecDepth 200000

namespace HDW

/-- Big-endian interpretation of a byte list:
`num_bigint::BigInt::from_bytes_be(Sign::Plus, bytes)`. -/
def bytesToNat (bs : List Nat) : Nat :=
  bs.foldl (fun acc b => acc * 256 + b) 0

/-- Big-endian base-`base` digit expansion of `n`, most significant digit
first, no leading zeros, `[]` for `0`.  The fuel argument strictly exceeds `n`
at every call site, which dominates the recursion depth (`n / base < n`). -/
def digitsAux (base : Nat) : Nat → Nat → List Nat
  | 0, _ => []
  | fuel+1, n => if n = 0 then [] else digitsAux base fuel (n / base) ++ [n % base]

/-- `num_bigint::BigInt::to_bytes_be` magnitude bytes: minimal big-endian
encoding, and the single byte `[0]` for zero. -/
def toBytesBE (n : Nat) : List Nat :=
  if n = 0 then [0] else digitsAux 256 (n + 1) n

/-- Lowercase hexadecimal digit character, as produced by
`BigInt::to_str_radix(16)`. -/
def hexDigitChar (d : Nat) : Char :=
  if d < 10 then Char.ofNat (48 + d) else Char.ofNat (87 + d)

/-- `BigInt::to_str_radix(16)` for a nonnegative value: minimal lowercase hex
digits, `"0"` for zero. -/
def toStrRadix16 (n : Nat) : String :=
  if n = 0 then "0" else ⟨(digitsAux 16 (n + 1) n).map hexDigitChar⟩

/-- Value of one hex digit character; accepts both cases, as `hex::decode`
does. -/
def hexVal (c : Char) : Option Nat :=
  if 48 ≤ c.toNat ∧ c.toNat ≤ 57 then some (c.toNat - 48)
  else if 97 ≤ c.toNat ∧ c.toNat ≤ 102 then some (c.toNat - 87)
  else if 65 ≤ c.toNat ∧ c.toNat ≤ 70 then some (c.toNat - 55)
  else none

/-- Decode a hex character list two digits at a time; fails on odd length or a
non-hex character, exactly as `hex::decode`. -/
def hexDecodeAux : List Char → Option (List Nat)
  | [] => some []
  | [_] => none
  | c1 :: c2 :: rest =>
    match hexVal c1, hexVal c2, hexDecodeAux rest with
    | some hi, some lo, some bs => some ((hi * 16 + lo) :: bs)
    | _, _, _ => none

/-- Models `hex::decode` on a string. -/
def hexDecode (s : String) : Option (List Nat) :=
  hexDecodeAux s.data

/-- Models `str::as_bytes` for the ASCII strings this codebase produces
(each character is one byte, its code point). -/
def strBytes (s : String) : List Nat :=
  s.data.map Char.toNat

/-- Models `u32::to_be_bytes` for `n < 2^32`. -/
def be32 (n : Nat) : List Nat :=
  [n / 2^24 % 256, n / 2^16 % 256, n / 2^8 % 256, n % 256]

/-- Value of one decimal digit character. -/
def digitVal (c : Char) : Option Nat :=
  if 48 ≤ c.toNat ∧ c.toNat ≤ 57 then some (c.toNat - 48) else none

/-- Models `str::parse::<u32>`: an optional leading `+`, then one or more
decimal digits, with the value below `2^32`; anything else is an error. -/
def parseU32 (s : String) : Option Nat :=
  let cs := match s.data with
    | c :: rest => if c = Char.ofNat 43 then rest else c :: rest
    | [] => []
  if cs = [] then none
  else match cs.mapM digitVal with
    | none => none
    | some ds =>
      let v := ds.foldl (fun a d => a * 10 + d) 0
      if v < 2^32 then some v else none

/-- Models `str::split('/')` collected into a vector: splitting on every
slash, keeping empty chunks, `[""]` for the empty string. -/
def splitSlash : List Char → List (List Char)
  | [] => [[]]
  | c :: cs =>
    match splitSlash cs with
    | [] => [[c]]
    | g :: gs => if c = Char.ofNat 47 then [] :: g :: gs else (c :: g) :: gs

/-! ## src/secp256k1.rs -/

/-- The `G_X` byte constant from src/secp256k1.rs. -/
def G_X : List Nat :=
  [0x79, 0xbe, 0x66, 0x7e, 0xf9, 0xdc, 0xbb, 0xac, 0x55, 0xa0, 0x62, 0x95, 0xce, 0x87, 0x0b, 0x07,
   0x02, 0x9b, 0xfc, 0xdb, 0x2d, 0xce, 0x28, 0xd9, 0x59, 0xf2, 0x81, 0x5b, 0x16, 0xf8, 0x17, 0x98]

/-- The `G_Y` byte constant from src/secp256k1.rs. -/
def G_Y : List Nat :=
  [0x48, 0x3a, 0xda, 0x77, 0x26, 0xa3, 0xc4, 0x65, 0x5d, 0xa4, 0xfb, 0xfc, 0x0e, 0x11, 0x08, 0xa8,
   0xfd, 0x17, 0xb4, 0x48, 0xa6, 0x85, 0x54, 0x19, 0x9c, 0x47, 0xd0, 0x8f, 0xfb, 0x10, 0xd4, 0xb8]

/-- The `CURVE_ORDER` byte constant from src/secp256k1.rs. -/
def CURVE_ORDER : List Nat :=
  [0xff, 0xff, 0xff, 0xff, 0xff, 0xff, 0xff, 0xff, 0xff, 0xff, 0xff, 0xff, 0xff, 0xff, 0xff, 0xfe,
   0xba, 0xae, 0xdc, 0xe6, 0xaf, 0x48, 0xa0, 0x3b, 0xbf, 0xd2, 0x5e, 0x8c, 0xd0, 0x36, 0x41, 0x41]

/-- The `Curve` struct. -/
structure Curve where
  p : Int
  a : Int
  b : Int
  r : Int

/-- `Curve::secp256k1()`. -/
def Curve.secp256k1 : Curve :=
  { p := 2^256 - 2^32 - 977
    a := 0
    b := 7
    r := (bytesToNat CURVE_ORDER : Int) }

/-- The `Point` struct: a coordinate pair of `BigInt`s.  The identity is the
magic pair `(0, 0)` (`Point::zero`), not a tagged variant. -/
structure Point where
  x : Int
  y : Int
deriving DecidableEq

/-- `Point::zero()`. -/
def Point.zero : Point := ⟨0, 0⟩

/-- `Point::secp256k1_base_point()`. -/
def Point.secp256k1_base_point : Point :=
  ⟨(bytesToNat G_X : Int), (bytesToNat G_Y : Int)⟩

/-- `Point::modulo(number, modulus)`: Rust
`(number % modulus + modulus) % modulus` with `BigInt` truncated `%`, the
modulus defaulting to `Curve::secp256k1().p`. -/
def Point.modulo (number : Int) (modulus : Option Int) : Int :=
  let m := modulus.getD Curve.secp256k1.p
  ((number.tmod m) + m).tmod m

/-- Fuel-indexed body of `Point::extended_euclid`.  The source recursion is
`extended_euclid(b % a, a)`, so for `0 ≤ a` the first argument strictly
decreases and any fuel exceeding `a` yields the same value as the unbounded
Rust recursion (`egcdAux_fuel_irrelevant` below). -/
def egcdAux : Nat → Int → Int → Int × Int × Int
  | 0, _, b => (b, 0, 1)
  | fuel+1, a, b =>
    if a = 0 then (b, 0, 1)
    else
      let r := egcdAux fuel (b.tmod a) a
      (r.1, r.2.2 - (b.tdiv a) * r.2.1, r.2.1)

/-- `Point::extended_euclid(a, b)`: base case `a = 0 → (b, 0, 1)`, inductive
step recursing on `(b % a, a)` and back-substituting
`(g, y - (b / a) * x, x)`. -/
def Point.extended_euclid (a b : Int) : Int × Int × Int :=
  egcdAux (a.toNat + 1) a b

/-- `Point::invert(number, modulus)`: reduce `number` modulo `m`, run the
extended Euclid against `m`, then reduce the Bezout coefficient with
`modulo(x, None)` — i.e. modulo the fixed field prime, whatever `m` was. -/
def Point.invert (number : Int) (modulus : Option Int) : Int :=
  let m := modulus.getD Curve.secp256k1.p
  let a := Point.modulo number (some m)
  let b := m
  let r := Point.extended_euclid a b
  Point.modulo r.2.1 none

/-- `Point::double`. -/
def Point.double (P : Point) : Point :=
  let curve := Curve.secp256k1
  let x1 := P.x
  let y1 := P.y
  let m := (3 * x1 * x1 + curve.a) * Point.invert (2 * y1) none
  let m := Point.modulo m none
  let x3 := Point.modulo (m * m - 2 * x1) none
  let y3 := Point.modulo (m * (x1 - x3) - y1) none
  ⟨x3, y3⟩

/-- `Point::add`.  The guard order is exactly the source's: identity checks on
either argument, then the `P = Q` doubling case, then the additive-inverse
case, then the chord formula.  The Rust parity test `y1 == -1 * y2` is the
third guard's condition. -/
def Point.add (P Q : Point) : Point :=
  let x1 := P.x
  let y1 := P.y
  let x2 := Q.x
  let y2 := Q.y
  if x1 = 0 ∨ y1 = 0 then Q
  else if x2 = 0 ∨ y2 = 0 then P
  else if x1 = x2 ∧ y1 = y2 then P.double
  else if x1 = x2 ∧ y1 = -1 * y2 then Point.zero
  else
    let m := Point.modulo ((y2 - y1) * Point.invert (x2 - x1) none) none
    let x3 := Point.modulo (m * m - x1 - x2) none
    let y3 := Point.modulo (m * (x1 - x3) - y1) none
    ⟨x3, y3⟩

/-- Fuel-indexed body of the `Point::double_and_add` loop
(`while n > 0 { if odd, accumulate; double; shift }`).  The loop variable
halves each iteration, so fuel exceeding `n` dominates the iteration count. -/
def dadAux : Nat → Point → Point → Nat → Point
  | 0, p, _, _ => p
  | fuel+1, p, d, n =>
    if n = 0 then p
    else dadAux fuel (if n % 2 = 1 then p.add d else p) d.double (n / 2)

/-- `Point::double_and_add(d, n)`.  The Rust loop runs on a `BigInt` `n`; for
`n ≤ 0` it performs no iterations and returns `Point::zero()`, which `Int.toNat`
reproduces. -/
def Point.double_and_add (d : Point) (n : Int) : Point :=
  dadAux (n.toNat + 1) Point.zero d n.toNat

/-- Coordinates lie in `[0, p)`: the range every point produced by the
arithmetic layer satisfies. -/
def Point.InRange (P : Point) : Prop :=
  0 ≤ P.x ∧ P.x < Curve.secp256k1.p ∧ 0 ≤ P.y ∧ P.y < Curve.secp256k1.p

instance (P : Point) : Decidable P.InRange := by
  unfold Point.InRange; infer_instance

/-- Membership of the secp256k1 curve `y^2 = x^3 + 7` over the prime field,
for points in coordinate range. -/
def Point.OnCurve (P : Point) : Prop :=
  P.InRange ∧
  (P.y * P.y).emod Curve.secp256k1.p = (P.x * P.x * P.x + 7).emod Curve.secp256k1.p

instance (P : Point) : Decidable P.OnCurve := by
  unfold Point.OnCurve; infer_instance

/-! ## src/error.rs -/

/-- The `Error` enum, complete: note there is no `SeedDecode` and no
`InvalidChildKey` variant. -/
inductive Error
  | OpenWordlist (filepath : String)
  | ReadFile (filepath : String)
  | JsonSerialization
  | PathFromStr (path : String)
  | ChildNumberFromStr (child_number : String)
deriving DecidableEq

instance {ε α : Type} [DecidableEq ε] [DecidableEq α] : DecidableEq (Except ε α) := fun x y =>
  match x, y with
  | .ok a, .ok b => if h : a = b then .isTrue (by rw [h]) else .isFalse (by simp [h])
  | .error a, .error b => if h : a = b then .isTrue (by rw [h]) else .isFalse (by simp [h])
  | .ok _, .error _ => .isFalse (by simp)
  | .error _, .ok _ => .isFalse (by simp)

/-! ## src/child_number.rs and src/path.rs -/

/-- The `ChildNumber` struct. -/
structure ChildNumber where
  is_hardened : Bool
  index : Nat
deriving DecidableEq

/-- `ChildNumber::from_str`: strip one trailing apostrophe (hardened marker),
then parse the rest as `u32`. -/
def ChildNumber.from_str (child : String) : Except Error ChildNumber :=
  let stripped : Option String :=
    if child.data.getLast? = some (Char.ofNat 39) then some ⟨child.data.dropLast⟩ else none
  let hardened_and_chunk : Bool × String :=
    match stripped with
    | none => (false, child)
    | some pos => (true, pos)
  match parseU32 hardened_and_chunk.2 with
  | none => .error (.ChildNumberFromStr child)
  | some index => .ok ⟨hardened_and_chunk.1, index⟩

/-- The `Path` struct. -/
structure Path where
  depth : Nat
  child_numbers : List ChildNumber
deriving DecidableEq

/-- `Path::from_str`: split on slashes, `depth = chunks.len() - 1`, parse every
chunk as a `ChildNumber`, mapping any failure to `PathFromStr`. -/
def Path.from_str (path : String) : Except Error Path :=
  let chunks := splitSlash path.data
  let depth := chunks.length - 1
  match chunks.mapM (fun s => ChildNumber.from_str ⟨s⟩) with
  | .error _ => .error (.PathFromStr path)
  | .ok child_numbers => .ok ⟨depth, child_numbers⟩

/-! ## src/keys.rs and src/version.rs -/

/-- The `ExtendedKey` struct.  `private_key`, `chain_code` and `finger_print`
are `[u8; 32]`/`[u8; 4]` in Rust; the fixed lengths are facts about the values
the constructors produce, not about the list type. -/
structure ExtendedKey where
  private_key : List Nat
  chain_code : List Nat
  path : Path
  finger_print : List Nat
deriving DecidableEq

/-- The `Version` enum. -/
inductive Version
  | Private
  | Public
  | TestnetPublic
  | TestnetPrivate
deriving DecidableEq

/-- `Version::to_be_bytes`: the big-endian bytes of the four magic
constants. -/
def Version.to_be_bytes : Version → List Nat
  | .Private => [0x04, 0x88, 0xAD, 0xE4]
  | .Public => [0x04, 0x88, 0xB2, 0x1E]
  | .TestnetPublic => [0x04, 0x35, 0x87, 0xCF]
  | .TestnetPrivate => [0x04, 0x35, 0x83, 0x94]

/-- The point computed at the top of `ExtendedKey::public_key`:
`Point::double_and_add(Point::secp256k1_base_point(), parse256(private_key))`. -/
def ExtendedKey.derivedPoint (k : ExtendedKey) : Point :=
  Point.double_and_add Point.secp256k1_base_point (bytesToNat k.private_key : Int)

/-- `ExtendedKey::public_key`: a hex string.  Compressed: prefix `"03"`
when the y-coordinate is odd (`&y & 1 != 0`; the parity test is modelled as
`tmod 2 ≠ 0`, which agrees with the two's-complement low bit on every
integer), else `"02"`, followed by `x.to_str_radix(16)`; uncompressed: `"04"`
followed by both coordinates.  Coordinates are nonnegative (they come out of
`Point::modulo`), so `to_str_radix` of the magnitude (`Int.toNat`) is
faithful. -/
def ExtendedKey.public_key (k : ExtendedKey) (is_compressed : Bool) : String :=
  let point := k.derivedPoint
  match is_compressed with
  | true =>
    let pre := if point.y.tmod 2 ≠ 0 then "03" else "02"
    pre ++ toStrRadix16 point.x.toNat
  | false => "04" ++ toStrRadix16 point.x.toNat ++ toStrRadix16 point.y.toNat

/-- The 78-byte payload assembled by `ExtendedKey::to_base58` before it is
handed to the external `bs58` crate (base58 text with a double-SHA256
checksum appended is the external crate's work and is not modelled):
version ‖ depth as u8 ‖ finger_print ‖ last child index (big-endian)
‖ chain_code ‖ key material.  `path.child_numbers.last().unwrap()` panics on an
empty path (`none`); for the public versions the key material is
`public_key(true).as_bytes()[..33]` — the first 33 *characters* of the hex
string — which panics when the string is shorter than 33. -/
def ExtendedKey.to_base58_payload (k : ExtendedKey) (version : Version) : Option (List Nat) :=
  let data1 := version.to_be_bytes ++ [k.path.depth % 256] ++ k.finger_print
  match k.path.child_numbers.getLast? with
  | none => none
  | some child_number =>
    let data2 := data1 ++ be32 child_number.index ++ k.chain_code
    match version with
    | .Private | .TestnetPrivate => some (data2 ++ [0x00] ++ k.private_key)
    | .Public | .TestnetPublic =>
      let pk := strBytes (k.public_key true)
      if 33 ≤ pk.length then some (data2 ++ pk.take 33) else none

/-! ## src/bip32.rs -/

/-- The `MASTER_PATH` constant `"0'"`. -/
def MASTER_PATH : String := ⟨[Char.ofNat 48, Char.ofNat 39]⟩

/-- The `KEY_SIZE` constant. -/
def KEY_SIZE : Nat := 32

/-- The `BIP39_DOMAIN_SEPARATOR` constant. -/
def BIP39_DOMAIN_SEPARATOR : String := "Bitcoin seed"

/-- The `HARDENED_FLAG` constant `1 << 31`. -/
def HARDENED_FLAG : Nat := 2^31

/-- The external cryptographic primitives used by src/bip32.rs, as
uninterpreted functions: `HmacSha512` (keyed, 64-byte output),
`Sha256` and `Ripemd160`. -/
structure Oracles where
  hmacSha512 : List Nat → List Nat → List Nat
  sha256 : List Nat → List Nat
  ripemd160 : List Nat → List Nat

/-- The HMAC message `Bip32::derive` feeds after keying with the parent chain
code: hardened — `0x00 ‖ parent private key ‖ be32(index | HARDENED_FLAG)`;
normal — `parent compressed public key bytes ‖ be32(index)`. -/
def Bip32.deriveMessage (key : ExtendedKey) (child_number : ChildNumber)
    (m_public_key : List Nat) : List Nat :=
  match child_number.is_hardened with
  | true => [0] ++ key.private_key ++ be32 (child_number.index ||| HARDENED_FLAG)
  | false => m_public_key ++ be32 child_number.index

/-- `Bip32::from_seed`: hex-decode the seed (`unwrap` panics on malformed
hex — `none`), HMAC-SHA512 it under `"Bitcoin seed"`, split 32/32 into secret
key and chain code, and parse `MASTER_PATH` (`"0'"`) as the master path.
The 32-byte `try_into().unwrap()`s require a 64-byte HMAC output. -/
def Bip32.from_seed (o : Oracles) (seed : String) : Option (Except Error ExtendedKey) :=
  match hexDecode seed with
  | none => none
  | some seedBytes =>
    let result := o.hmacSha512 (strBytes BIP39_DOMAIN_SEPARATOR) seedBytes
    if result.length = 64 then
      match Path.from_str MASTER_PATH with
      | .error e => some (.error e)
      | .ok master_path =>
        some (.ok { private_key := result.take KEY_SIZE
                    chain_code := result.drop KEY_SIZE
                    path := master_path
                    finger_print := List.replicate 4 0 })
    else none

/-- `Bip32::derive`.  Returns `ExtendedKey` (not `Result`); every failure mode
is a panic (`none`): `hex::decode(public_key(true)).unwrap()` on an odd-length
hex string, the HMAC split `try_into` unwraps, the `ki.1.as_slice()[..32]`
slice when the reduced child scalar's big-endian encoding is shorter than 32
bytes, and the `[..4]` fingerprint slice. -/
def Bip32.derive (o : Oracles) (key : ExtendedKey) (child_number : ChildNumber) :
    Option ExtendedKey :=
  let m_chain_code := key.chain_code
  match hexDecode (key.public_key true) with
  | none => none
  | some m_public_key =>
    let message := Bip32.deriveMessage key child_number m_public_key
    let result := o.hmacSha512 m_chain_code message
    if result.length = 64 then
      let secret_key := result.take KEY_SIZE
      let chain_code := result.drop KEY_SIZE
      let curve := Curve.secp256k1
      let parse256 : Int := (bytesToNat secret_key : Int)
      let k_par : Int := (bytesToNat key.private_key : Int)
      let ki := toBytesBE (Point.modulo (parse256 + k_par) (some curve.r)).toNat
      let path : Path := { depth := key.path.depth + 1
                           child_numbers := key.path.child_numbers ++ [child_number] }
      let finger_print := o.ripemd160 (o.sha256 m_public_key)
      if 32 ≤ ki.length ∧ 4 ≤ finger_print.length then
        some { private_key := ki.take 32
               chain_code := chain_code
               path := path
               finger_print := finger_print.take 4 }
      else none
    else none

/-- The reduced child scalar `(parse256(IL) + k_par) mod r` that
`Bip32::derive` computes, exposed for specification purposes; `none` when
`derive` panics before reaching it. -/
def Bip32.deriveScalar (o : Oracles) (key : ExtendedKey) (child_number : ChildNumber) :
    Option Int :=
  (hexDecode (key.public_key true)).map fun m_public_key =>
    let message := Bip32.deriveMessage key child_number m_public_key
    Point.modulo
      ((bytesToNat ((o.hmacSha512 key.chain_code message).take KEY_SIZE) : Int)
        + (bytesToNat key.private_key : Int))
      (some Curve.secp256k1.r)

/-- The extended keys reachable at the public interface: a master key
returned by `from_seed`, or the result of `derive` on a reachable key. -/
inductive Reachable (o : Oracles) : ExtendedKey → Prop
  | seed (s : String) (k : ExtendedKey) :
      Bip32.from_seed o s = some (.ok k) → Reachable o k
  | step (k : ExtendedKey) (cn : ChildNumber) (next : ExtendedKey) :
      Reachable o k → Bip32.derive o k cn = some next → Reachable o next

/-! ## Concrete material for witnesses and counterexamples -/

/-- Oracle whose HMAC returns 64 zero bytes (hash outputs sized as the real
primitives: 32 and 20 bytes). -/
def zeroOracles : Oracles :=
  ⟨fun _ _ => List.replicate 64 0, fun _ => List.replicate 32 0, fun _ => List.replicate 20 0⟩

/-- Oracle whose HMAC output has `IL = 2^248` and `IR = 0`. -/
def oracle248 : Oracles :=
  ⟨fun _ _ => (1 :: List.replicate 31 0) ++ List.replicate 32 0,
   fun _ => List.replicate 32 0, fun _ => List.replicate 20 0⟩

/-- Oracle whose HMAC output has `IL = r - 1` (one below the secp256k1 group
order) and `IR = 0`. -/
def oracleOrderMinusOne : Oracles :=
  ⟨fun _ _ => toBytesBE (bytesToNat CURVE_ORDER - 1) ++ List.replicate 32 0,
   fun _ => List.replicate 32 0, fun _ => List.replicate 20 0⟩

/-- An extended key whose private key is 1 (scalar multiplication by it is the
base point itself). -/
def keyOne : ExtendedKey :=
  { private_key := List.replicate 31 0 ++ [1]
    chain_code := List.replicate 32 0
    path := ⟨0, [⟨true, 0⟩]⟩
    finger_print := List.replicate 4 0 }

/-- The master key `from_seed zeroOracles ""` produces: all-zero private key
and chain code, the parsed `"0'"` master path, zero fingerprint. -/
def masterKeyZero : ExtendedKey :=
  { private_key := List.replicate 32 0
    chain_code := List.replicate 32 0
    path := ⟨0, [⟨true, 0⟩]⟩
    finger_print := List.replicate 4 0 }

/-- The child `derive oracle248 keyOne ⟨true, 5⟩` produces: private key
`2^248 + 1`, zero chain code, path extended by the raw step `5'`. -/
def keyOneChild5 : ExtendedKey :=
  { private_key := 1 :: (List.replicate 30 0 ++ [1])
    chain_code := List.replicate 32 0
    path := ⟨1, [⟨true, 0⟩, ⟨true, 5⟩]⟩
    finger_print := List.replicate 4 0 }

/-- The child `derive oracle248 keyOne ⟨true, 0⟩` produces. -/
def keyOneChild0 : ExtendedKey :=
  { private_key := 1 :: (List.replicate 30 0 ++ [1])
    chain_code := List.replicate 32 0
    path := ⟨1, [⟨true, 0⟩, ⟨true, 0⟩]⟩
    finger_print := List.replicate 4 0 }

/-- The serialized payload of `keyOneChild5` under the mainnet private
version. -/
def keyOneChild5Payload : List Nat :=
  (keyOneChild5.to_base58_payload Version.Private).getD []

/-- Oracle whose HMAC output has `IL` equal to the secp256k1 group order `r`
itself (so `IL ≥ r`) and `IR = 0`. -/
def oracleOrder : Oracles :=
  ⟨fun _ _ => CURVE_ORDER ++ List.replicate 32 0,
   fun _ => List.replicate 32 0, fun _ => List.replicate 20 0⟩

/-! ## Arithmetic helper lemmas -/

theorem p_pos : (0 : Int) < Curve.secp256k1.p := by norm_num [Curve.secp256k1]

theorem r_pos : (0 : Int) < Curve.secp256k1.r := by decide

/-- The truncated remainder is strictly above `-m` for a positive modulus. -/
theorem neg_lt_tmod (n m : Int) (hm : 0 < m) : -m < n.tmod m := by
  obtain ⟨m', rfl⟩ := Int.eq_ofNat_of_zero_le hm.le
  have hm' : 0 < m' := by exact_mod_cast hm
  cases n with
  | ofNat k =>
    have h : Int.tmod (Int.ofNat k) ((m' : Nat) : Int) = ((k % m' : Nat) : Int) := rfl
    rw [h]
    omega
  | negSucc k =>
    have h : Int.tmod (Int.negSucc k) ((m' : Nat) : Int) = -(((k + 1) % m' : Nat) : Int) := rfl
    rw [h]
    have := Nat.mod_lt (k + 1) hm'
    omega

/-- `Point::modulo` with a positive modulus is the Euclidean remainder. -/
theorem modulo_eq_emod (n m : Int) (hm : 0 < m) : Point.modulo n (some m) = n.emod m := by
  unfold Point.modulo
  simp only [Option.getD_some]
  have h1 : 0 ≤ n.tmod m + m := by have := neg_lt_tmod n m hm; omega
  rw [Int.tmod_eq_emod h1 hm.le]
  have h2 : n.tmod m + m = n.tmod m + m * 1 := by ring
  rw [h2, Int.add_mul_emod_self_left]
  rw [Int.tmod_def]
  have h3 : n - m * n.tdiv m = n + m * (-(n.tdiv m)) := by ring
  rw [h3, Int.add_mul_emod_self_left]
  rfl

theorem modulo_nonneg (n m : Int) (hm : 0 < m) : 0 ≤ Point.modulo n (some m) := by
  rw [modulo_eq_emod n m hm]; exact Int.emod_nonneg n hm.ne'

theorem modulo_lt (n m : Int) (hm : 0 < m) : Point.modulo n (some m) < m := by
  rw [modulo_eq_emod n m hm]; exact Int.emod_lt_of_pos n hm

/-- `modulo(x, None)` is reduction modulo the field prime. -/
theorem modulo_none_eq_emod (n : Int) :
    Point.modulo n none = n.emod Curve.secp256k1.p :=
  modulo_eq_emod n Curve.secp256k1.p p_pos

/-! ## Digit-expansion length lemmas -/

theorem digitsAux_zero (base fuel : Nat) : digitsAux base fuel 0 = [] := by
  cases fuel <;> simp [digitsAux]

theorem digitsAux_length (base : Nat) (hb : 2 ≤ base) :
    ∀ fuel n, 0 < n → n < fuel →
      (digitsAux base fuel n).length = Nat.log base n + 1 := by
  intro fuel
  induction fuel with
  | zero => intro n hn hf; omega
  | succ fuel ih =>
    intro n hn hf
    rw [digitsAux, if_neg hn.ne']
    rw [List.length_append, List.length_singleton]
    by_cases hnb : n < base
    · rw [Nat.div_eq_of_lt hnb, digitsAux_zero]
      have : Nat.log base n = 0 := Nat.log_eq_zero_iff.mpr (Or.inl hnb)
      simp [this]
    · push_neg at hnb
      have hdpos : 0 < n / base := Nat.div_pos hnb (by omega)
      have hdlt : n / base < fuel := by
        have := Nat.div_lt_self hn (by omega : 1 < base)
        omega
      rw [ih (n / base) hdpos hdlt]
      rw [Nat.log_div_base]
      have hlog : 0 < Nat.log base n := Nat.log_pos (by omega) hnb
      omega

/-- If the minimal big-endian encoding has at least 32 bytes, the value is at
least `2^248`. -/
theorem toBytesBE_long_ge (n : Nat) (h : 32 ≤ (toBytesBE n).length) : 2^248 ≤ n := by
  by_cases hn : n = 0
  · subst hn; simp [toBytesBE] at h
  · rw [toBytesBE, if_neg hn] at h
    rw [digitsAux_length 256 (by norm_num) (n + 1) n (Nat.pos_of_ne_zero hn) (Nat.lt_succ_self n)] at h
    have hlog : 31 ≤ Nat.log 256 n := by omega
    calc 2^248 = 256^31 := by norm_num
    _ ≤ 256 ^ Nat.log 256 n := Nat.pow_le_pow_right (by norm_num) hlog
    _ ≤ n := Nat.pow_log_le_self 256 hn

/-- Values in `[16^63, 16^64)` have exactly 64 minimal hex digits. -/
theorem toStrRadix16_length (n : Nat) (h1 : 16^63 ≤ n) (h2 : n < 16^64) :
    (toStrRadix16 n).length = 64 := by
  have hn : n ≠ 0 := by positivity
  rw [toStrRadix16, if_neg hn]
  show ((digitsAux 16 (n + 1) n).map hexDigitChar).length = 64
  rw [List.length_map]
  rw [digitsAux_length 16 (by norm_num) (n + 1) n (Nat.pos_of_ne_zero hn) (Nat.lt_succ_self n)]
  rw [Nat.log_eq_of_pow_le_of_lt_pow h1 h2]

/-! ## Extended Euclid lemmas -/

/-- Any two sufficient fuels give `egcdAux` the same value: the fuel encoding
adds nothing to the Rust recursion on nonnegative inputs. -/
theorem egcdAux_fuel_irrelevant :
    ∀ (f1 f2 : Nat) (a b : Int), 0 ≤ a → 0 ≤ b → a < (f1 : Int) → a < (f2 : Int) →
      egcdAux f1 a b = egcdAux f2 a b := by
  intro f1
  induction f1 with
  | zero => intro f2 a b ha _ h1 _; omega
  | succ f1 ih =>
    intro f2 a b ha hb h1 h2
    cases f2 with
    | zero => omega
    | succ f2 =>
      rw [egcdAux, egcdAux]
      by_cases haz : a = 0
      · rw [if_pos haz, if_pos haz]
      · rw [if_neg haz, if_neg haz]
        have hapos : 0 < a := lt_of_le_of_ne ha (Ne.symm haz)
        have htn : 0 ≤ b.tmod a := Int.tmod_nonneg a hb
        have htl : b.tmod a < a := Int.tmod_lt_of_pos b hapos
        rw [ih f2 (b.tmod a) a htn ha (by omega) (by omega)]

/-- Faithfulness certificate: for nonnegative inputs `Point.extended_euclid`
satisfies exactly the recursion of the Rust source — base case
`a = 0 → (b, 0, 1)`, inductive step recursing on `(b % a, a)` and returning
`(g, y - (b / a) * x, x)`. -/
theorem extended_euclid_eq (a b : Int) (ha : 0 ≤ a) (hb : 0 ≤ b) :
    Point.extended_euclid a b =
      if a = 0 then (b, 0, 1)
      else
        let r := Point.extended_euclid (b.tmod a) a
        (r.1, r.2.2 - (b.tdiv a) * r.2.1, r.2.1) := by
  unfold Point.extended_euclid
  rw [egcdAux]
  by_cases haz : a = 0
  · simp [haz]
  · simp only [if_neg haz]
    have hapos : 0 < a := lt_of_le_of_ne ha (Ne.symm haz)
    have htn : 0 ≤ b.tmod a := Int.tmod_nonneg a hb
    have htl : b.tmod a < a := Int.tmod_lt_of_pos b hapos
    rw [egcdAux_fuel_irrelevant (a.toNat) ((b.tmod a).toNat + 1) (b.tmod a) a htn ha
      (by omega) (by omega)]

/-- Bezout identity and gcd correctness of the fuel-indexed extended Euclid,
for nonnegative inputs and sufficient fuel. -/
theorem egcdAux_bezout :
    ∀ (fuel : Nat) (a b : Int), 0 ≤ a → 0 ≤ b → a < (fuel : Int) →
      a * (egcdAux fuel a b).2.1 + b * (egcdAux fuel a b).2.2 = (egcdAux fuel a b).1
      ∧ (egcdAux fuel a b).1 = (Int.gcd a b : Int) := by
  intro fuel
  induction fuel with
  | zero => intro a b ha _ h1; omega
  | succ fuel ih =>
    intro a b ha hb h1
    rw [egcdAux]
    by_cases haz : a = 0
    · subst haz
      simp only [if_pos rfl]
      constructor
      · simp
      · obtain ⟨b', rfl⟩ := Int.eq_ofNat_of_zero_le hb
        simp [Int.gcd]
    · simp only [if_neg haz]
      have hapos : 0 < a := lt_of_le_of_ne ha (Ne.symm haz)
      have htn : 0 ≤ b.tmod a := Int.tmod_nonneg a hb
      have htl : b.tmod a < a := Int.tmod_lt_of_pos b hapos
      obtain ⟨hbez, hgcd⟩ := ih (b.tmod a) a htn ha (by omega)
      constructor
      · show a * ((egcdAux fuel (b.tmod a) a).2.2 - (b.tdiv a) * (egcdAux fuel (b.tmod a) a).2.1)
            + b * (egcdAux fuel (b.tmod a) a).2.1 = (egcdAux fuel (b.tmod a) a).1
        have hdef : b.tmod a = b - a * (b.tdiv a) := Int.tmod_def b a
        linear_combination hbez - (egcdAux fuel (b.tmod a) a).2.1 * hdef
      · show (egcdAux fuel (b.tmod a) a).1 = (Int.gcd a b : Int)
        rw [hgcd]
        obtain ⟨a', rfl⟩ := Int.eq_ofNat_of_zero_le ha
        obtain ⟨b', rfl⟩ := Int.eq_ofNat_of_zero_le hb
        rw [← Int.ofNat_tmod]
        norm_cast
        exact (Nat.gcd_rec a' b').symm

/-- Reducing the first argument modulo the second does not change the gcd. -/
theorem gcd_emod_left (n m : Int) (_hm : m ≠ 0) :
    Int.gcd (n % m) m = Int.gcd n m := by
  have hrepr : n = n % m + m * (n / m) := by
    have := Int.emod_def n m
    linarith
  apply Nat.dvd_antisymm
  · rw [← Int.natCast_dvd_natCast]
    apply Int.dvd_gcd
    · have h1 : (Int.gcd (n % m) m : Int) ∣ n % m + m * (n / m) :=
        dvd_add Int.gcd_dvd_left (Dvd.dvd.mul_right Int.gcd_dvd_right _)
      rwa [← hrepr] at h1
    · exact Int.gcd_dvd_right
  · rw [← Int.natCast_dvd_natCast]
    apply Int.dvd_gcd
    · have h1 : (Int.gcd n m : Int) ∣ n := Int.gcd_dvd_left
      have h2 : (Int.gcd n m : Int) ∣ m * (n / m) := Dvd.dvd.mul_right Int.gcd_dvd_right _
      have h3 : (Int.gcd n m : Int) ∣ n - m * (n / m) := dvd_sub h1 h2
      rwa [show n - m * (n / m) = n % m by linarith [Int.emod_def n m]] at h3
    · exact Int.gcd_dvd_right

/-! ## Coordinate-range lemmas for the arithmetic layer -/

theorem zero_inRange : Point.zero.InRange := by
  refine ⟨le_refl 0, p_pos, le_refl 0, p_pos⟩

theorem double_inRange (P : Point) : P.double.InRange := by
  unfold Point.double Point.InRange
  refine ⟨?_, ?_, ?_, ?_⟩ <;>
    first
      | exact modulo_nonneg _ _ p_pos
      | exact modulo_lt _ _ p_pos

theorem add_inRange (P Q : Point) (hP : P.InRange) (hQ : Q.InRange) :
    (P.add Q).InRange := by
  unfold Point.add
  dsimp only
  split
  · exact hQ
  · split
    · exact hP
    · split
      · exact double_inRange P
      · split
        · exact zero_inRange
        · exact ⟨modulo_nonneg _ _ p_pos, modulo_lt _ _ p_pos,
            modulo_nonneg _ _ p_pos, modulo_lt _ _ p_pos⟩

theorem dadAux_inRange :
    ∀ (fuel : Nat) (p d : Point) (n : Nat), p.InRange → d.InRange →
      (dadAux fuel p d n).InRange := by
  intro fuel
  induction fuel with
  | zero => intro p d n hp _; exact hp
  | succ fuel ih =>
    intro p d n hp hd
    rw [dadAux]
    split
    · exact hp
    · apply ih
      · split
        · exact add_inRange p d hp hd
        · exact hp
      · exact double_inRange d

theorem base_point_inRange : Point.secp256k1_base_point.InRange := by decide

theorem double_and_add_inRange (d : Point) (n : Int) (hd : d.InRange) :
    (Point.double_and_add d n).InRange :=
  dadAux_inRange _ _ _ _ zero_inRange hd

theorem derivedPoint_inRange (k : ExtendedKey) : k.derivedPoint.InRange :=
  double_and_add_inRange _ _ base_point_inRange

/-! ## Shape lemmas for the BIP32 layer -/

/-- Whatever `from_seed` successfully returns has the parsed `"0'"` master
path — depth `0` and the single hardened placeholder step `0'` — and the
all-zero default fingerprint; the key material is the 32/32 HMAC split. -/
theorem from_seed_ok_shape (o : Oracles) (s : String) (k : ExtendedKey)
    (h : Bip32.from_seed o s = some (.ok k)) :
    k.path = ⟨0, [⟨true, 0⟩]⟩ ∧ k.finger_print = List.replicate 4 0 ∧
    ∃ seedBytes, hexDecode s = some seedBytes ∧
      k.private_key = (o.hmacSha512 (strBytes BIP39_DOMAIN_SEPARATOR) seedBytes).take KEY_SIZE ∧
      k.chain_code = (o.hmacSha512 (strBytes BIP39_DOMAIN_SEPARATOR) seedBytes).drop KEY_SIZE := by
  unfold Bip32.from_seed at h
  rcases hx : hexDecode s with _ | seedBytes
  · rw [hx] at h; exact absurd h (by simp)
  · rw [hx] at h
    dsimp only at h
    by_cases h64 : (o.hmacSha512 (strBytes BIP39_DOMAIN_SEPARATOR) seedBytes).length = 64
    · rw [if_pos h64] at h
      have hm : Path.from_str MASTER_PATH = .ok ⟨0, [⟨true, 0⟩]⟩ := by decide
      rw [hm] at h
      simp only [Option.some.injEq, Except.ok.injEq] at h
      subst h
      exact ⟨rfl, rfl, seedBytes, rfl, rfl, rfl⟩
    · rw [if_neg h64] at h
      exact absurd h (by simp)

/-- Whatever `derive` successfully returns: path extended by the raw step,
depth incremented, 4-byte fingerprint, 32-byte private key, and the private
key is the 32-byte big-endian encoding of the reduced scalar, which is at
least `2^248` (else the `[..32]` slice would have panicked). -/
theorem derive_some_shape (o : Oracles) (k : ExtendedKey) (cn : ChildNumber)
    (k' : ExtendedKey) (h : Bip32.derive o k cn = some k') :
    k'.path.depth = k.path.depth + 1 ∧
    k'.path.child_numbers = k.path.child_numbers ++ [cn] ∧
    k'.finger_print.length = 4 ∧
    k'.private_key.length = 32 ∧
    ∃ s : Int, Bip32.deriveScalar o k cn = some s ∧ 0 ≤ s ∧ (2:Int)^248 ≤ s ∧
      k'.private_key = (toBytesBE s.toNat).take 32 ∧
      k'.chain_code = (o.hmacSha512 k.chain_code
        (Bip32.deriveMessage k cn ((hexDecode (k.public_key true)).getD []))).drop KEY_SIZE := by
  unfold Bip32.derive at h
  rcases hx : hexDecode (k.public_key true) with _ | pub
  · rw [hx] at h; exact absurd h (by simp)
  · rw [hx] at h
    dsimp only at h
    by_cases h64 : (o.hmacSha512 k.chain_code (Bip32.deriveMessage k cn pub)).length = 64
    · rw [if_pos h64] at h
      set s : Int := Point.modulo
        ((bytesToNat ((o.hmacSha512 k.chain_code (Bip32.deriveMessage k cn pub)).take KEY_SIZE) : Int)
          + (bytesToNat k.private_key : Int)) (some Curve.secp256k1.r) with hs
      by_cases hg : 32 ≤ (toBytesBE s.toNat).length ∧
          4 ≤ (o.ripemd160 (o.sha256 pub)).length
      · rw [if_pos hg] at h
        obtain ⟨pk', cc', pth', fp'⟩ := k'
        simp only [Option.some.injEq, ExtendedKey.mk.injEq] at h
        obtain ⟨h1, h2, h3, h4⟩ := h
        subst h1
        subst h2
        subst h3
        subst h4
        have hsn : 0 ≤ s := by rw [hs]; exact modulo_nonneg _ _ r_pos
        refine ⟨rfl, rfl, ?_, ?_, s, ?_, hsn, ?_, ?_, ?_⟩
        · simp only [List.length_take]
          omega
        · simp only [List.length_take]
          omega
        · unfold Bip32.deriveScalar
          rw [hx]
          simp only [Option.map_some']
        · have hn := toBytesBE_long_ge s.toNat hg.1
          calc (2:Int)^248 = ((2^248 : Nat) : Int) := by push_cast
            _ ≤ (s.toNat : Int) := by exact_mod_cast hn
            _ = s := Int.toNat_of_nonneg hsn
        · simp only []
        · simp only [Option.getD_some]
      · rw [if_neg hg] at h
        exact absurd h (by simp)
    · rw [if_neg h64] at h
      exact absurd h (by simp)

/-- The byte layout of a successfully assembled serialization payload. -/
theorem payload_shape (k : ExtendedKey) (v : Version) (pl : List Nat)
    (hp : k.to_base58_payload v = some pl) (cn : ChildNumber)
    (hl : k.path.child_numbers.getLast? = some cn) :
    ∃ material, pl = v.to_be_bytes ++ [k.path.depth % 256] ++ k.finger_print
      ++ be32 cn.index ++ k.chain_code ++ material := by
  unfold ExtendedKey.to_base58_payload at hp
  rw [hl] at hp
  dsimp only at hp
  cases v with
  | Private =>
    simp only [Option.some.injEq] at hp
    exact ⟨[0x00] ++ k.private_key, by rw [← hp]; simp [List.append_assoc]⟩
  | TestnetPrivate =>
    simp only [Option.some.injEq] at hp
    exact ⟨[0x00] ++ k.private_key, by rw [← hp]; simp [List.append_assoc]⟩
  | Public =>
    by_cases h33 : 33 ≤ (strBytes (k.public_key true)).length
    · rw [if_pos h33] at hp
      simp only [Option.some.injEq] at hp
      exact ⟨(strBytes (k.public_key true)).take 33, by rw [← hp]⟩
    · rw [if_neg h33] at hp
      exact absurd hp (by simp)
  | TestnetPublic =>
    by_cases h33 : 33 ≤ (strBytes (k.public_key true)).length
    · rw [if_pos h33] at hp
      simp only [Option.some.injEq] at hp
      exact ⟨(strBytes (k.public_key true)).take 33, by rw [← hp]⟩
    · rw [if_neg h33] at hp
      exact absurd hp (by simp)

/-! ## Claim theorems -/

/-- C1: the claim requires `Bip32::derive` to fail with an `InvalidChildKey`
error whenever `IL ≥ r` or the reduced scalar is `0`.  The code has no such
check: `derive` returns a bare `ExtendedKey` (no `Result`), the `Error` enum
has no `InvalidChildKey` variant, and at the two trigger conditions the code
panics out of the 32-byte slice instead (modelled as `none`): with `IL = r`
(so `IL ≥ r`) and parent key 1 the scalar silently reduces to `1` and the
slice panics; with `IL = r - 1` the scalar is `0` and the slice panics. -/
theorem c1_no_invalid_child_key_check :
    Bip32.deriveScalar oracleOrder keyOne ⟨true, 0⟩ = some 1
    ∧ Bip32.derive oracleOrder keyOne ⟨true, 0⟩ = none
    ∧ Bip32.deriveScalar oracleOrderMinusOne keyOne ⟨true, 0⟩ = some 0
    ∧ Bip32.derive oracleOrderMinusOne keyOne ⟨true, 0⟩ = none := by
  decide

/-- C2: the claim requires the last 33 bytes of the 78-byte payload under the
`Public` version to be the binary compressed public key `0x02/0x03 ‖ x`.  The
code instead appends the first 33 ASCII characters of the hex *string*
(`public_key(true).as_bytes()[..33]`): for the key with private key 1 the key
material bytes are the character codes of `"0279be667ef9dcbbac55a06295ce870b0"`
(first byte 48, the digit `0`), not `[0x02, 0x79, ...]`.  The `Private`
version half of the claim does hold: `0x00 ‖ private key`. -/
theorem c2_public_key_material_is_ascii_hex :
    ((keyOne.to_base58_payload Version.Public).getD []).length = 78
    ∧ ((keyOne.to_base58_payload Version.Public).getD []).drop 45
      = strBytes "0279be667ef9dcbbac55a06295ce870b0"
    ∧ (((keyOne.to_base58_payload Version.Public).getD []).drop 45).head? = some 48
    ∧ (keyOne.to_base58_payload Version.Private).map (fun l => l.drop 45)
      = some (0x00 :: keyOne.private_key) := by
  decide

/-- C3 counterexample: on the non-hex input `"zz"`, `from_seed` panics
(`unwrap` on the failed hex decode, modelled `none`); it does not return a
`SeedDecode` error — indeed no such variant exists in `Error`. -/
theorem c3_seed_decode_counterexample :
    hexDecode "zz" = none ∧ Bip32.from_seed zeroOracles "zz" = none := by
  decide

/-- C3 amended: for every input string that is not well-formed hex,
`from_seed` panics (returns no value at all) rather than returning a typed
error result. -/
theorem c3_malformed_seed_panics (o : Oracles) (s : String)
    (h : hexDecode s = none) : Bip32.from_seed o s = none := by
  unfold Bip32.from_seed
  rw [h]

/-- C3 witness: the amended theorem applied at the concrete input `"zz"`. -/
theorem c3_malformed_seed_panics_witness :
    hexDecode "zz" = none ∧ Bip32.from_seed zeroOracles "zz" = none :=
  ⟨by decide, c3_malformed_seed_panics zeroOracles "zz" (by decide)⟩

/-- C4 counterexample: the master key's derivation path is not empty — it
carries the parsed `MASTER_PATH` placeholder step `0'`. -/
theorem c4_master_path_not_empty :
    Bip32.from_seed zeroOracles "" = some (.ok masterKeyZero)
    ∧ masterKeyZero.path.child_numbers ≠ [] := by
  decide

/-- C4 amended: every key `from_seed` returns has depth `0` and the all-zero
4-byte fingerprint, but its path holds exactly one step — the hardened
placeholder `0'` parsed from `MASTER_PATH` — not zero steps. -/
theorem c4_master_key_shape (o : Oracles) (s : String) (k : ExtendedKey)
    (h : Bip32.from_seed o s = some (.ok k)) :
    k.path.depth = 0 ∧ k.finger_print = List.replicate 4 0 ∧
    k.path.child_numbers = [⟨true, 0⟩] := by
  obtain ⟨hp, hf, -⟩ := from_seed_ok_shape o s k h
  rw [hp]
  exact ⟨rfl, hf, rfl⟩

/-- C4 witness: the amended theorem applied at the empty hex seed with a
concrete oracle. -/
theorem c4_master_key_shape_witness :
    Bip32.from_seed zeroOracles "" = some (.ok masterKeyZero)
    ∧ (masterKeyZero.path.depth = 0
       ∧ masterKeyZero.finger_print = List.replicate 4 0
       ∧ masterKeyZero.path.child_numbers = [⟨true, 0⟩]) :=
  ⟨by decide, c4_master_key_shape zeroOracles "" masterKeyZero (by decide)⟩

/-- C5 counterexample: the master key is reachable and has depth `0` but one
path entry, so depth does not equal the number of derivation steps stored in
the path. -/
theorem c5_depth_ne_path_length :
    Reachable zeroOracles masterKeyZero
    ∧ masterKeyZero.path.depth = 0
    ∧ masterKeyZero.path.child_numbers.length = 1 :=
  ⟨Reachable.seed "" masterKeyZero (by decide), by decide, by decide⟩

/-- C5 amended: for every key reachable from `from_seed` by `derive` calls,
the stored depth is one less than the stored path length (the master path
already carries the placeholder step `0'` at depth 0, and `derive` increments
both in lockstep). -/
theorem c5_depth_eq_path_length_minus_one (o : Oracles) (k : ExtendedKey)
    (h : Reachable o k) : k.path.depth + 1 = k.path.child_numbers.length := by
  induction h with
  | seed s k0 hk =>
    obtain ⟨hp, -, -⟩ := from_seed_ok_shape o s k0 hk
    rw [hp]
    rfl
  | step k0 cn next hk hd ih =>
    obtain ⟨h1, h2, -, -, -⟩ := derive_some_shape o k0 cn next hd
    rw [h1, h2]
    simp only [List.length_append, List.length_singleton]
    omega

/-- C5 witness: the amended theorem applied to the reachable master key. -/
theorem c5_depth_witness :
    Reachable zeroOracles masterKeyZero
    ∧ masterKeyZero.path.depth + 1 = masterKeyZero.path.child_numbers.length :=
  ⟨Reachable.seed "" masterKeyZero (by decide),
   c5_depth_eq_path_length_minus_one zeroOracles masterKeyZero
     (Reachable.seed "" masterKeyZero (by decide))⟩

/-- C6 counterexample: `to_str_radix(16)` does not pad, so for the all-zero
private key (point `(0,0)`) the compressed form is the 3-character `"020"`,
not 66 characters, and the uncompressed form is `"0400"`, not 130. -/
theorem c6_public_key_length_counterexample :
    masterKeyZero.public_key true = "020"
    ∧ (masterKeyZero.public_key true).length ≠ 66
    ∧ masterKeyZero.public_key false = "0400" := by
  decide

/-- C6 amended: the compressed public key string is `02`/`03` (chosen by the
parity of the y-coordinate) followed by the *unpadded* hex of x, hence exactly
66 characters only when the point's x-coordinate is at least `2^252`; the
uncompressed string is `04` followed by both unpadded coordinates, 130
characters when both are at least `2^252`. -/
theorem c6_public_key_format (k : ExtendedKey)
    (hx : (2:Int)^252 ≤ k.derivedPoint.x) (hy : (2:Int)^252 ≤ k.derivedPoint.y) :
    (k.public_key true).length = 66
    ∧ (k.public_key true).data.take 2
      = (if k.derivedPoint.y.tmod 2 ≠ 0 then ['0', '3'] else ['0', '2'])
    ∧ (k.public_key false).length = 130
    ∧ (k.public_key false).data.take 2 = ['0', '4'] := by
  obtain ⟨hx0, hxp, hy0, hyp⟩ := derivedPoint_inRange k
  have hplt : Curve.secp256k1.p < ((16^64 : Nat) : Int) := by
    norm_num [Curve.secp256k1]
  have hxN : 16^63 ≤ (k.derivedPoint.x).toNat ∧ (k.derivedPoint.x).toNat < 16^64 := by
    constructor
    · have h1 : ((16^63 : Nat) : Int) ≤ k.derivedPoint.x := by
        calc ((16^63 : Nat) : Int) = (2:Int)^252 := by norm_num
        _ ≤ k.derivedPoint.x := hx
      omega
    · have h2 : k.derivedPoint.x < ((16^64 : Nat) : Int) := lt_trans hxp hplt
      omega
  have hyN : 16^63 ≤ (k.derivedPoint.y).toNat ∧ (k.derivedPoint.y).toNat < 16^64 := by
    constructor
    · have h1 : ((16^63 : Nat) : Int) ≤ k.derivedPoint.y := by
        calc ((16^63 : Nat) : Int) = (2:Int)^252 := by norm_num
        _ ≤ k.derivedPoint.y := hy
      omega
    · have h2 : k.derivedPoint.y < ((16^64 : Nat) : Int) := lt_trans hyp hplt
      omega
  have hlx := toStrRadix16_length _ hxN.1 hxN.2
  have hly := toStrRadix16_length _ hyN.1 hyN.2
  refine ⟨?_, ?_, ?_, ?_⟩
  · show (ExtendedKey.public_key k true).length = 66
    unfold ExtendedKey.public_key
    dsimp only
    split
    · rw [String.length_append, hlx]
      rfl
    · rw [String.length_append, hlx]
      rfl
  · show (ExtendedKey.public_key k true).data.take 2 = _
    unfold ExtendedKey.public_key
    dsimp only
    split
    · rw [String.data_append]
      exact List.take_left' rfl
    · rw [String.data_append]
      exact List.take_left' rfl
  · show (ExtendedKey.public_key k false).length = 130
    unfold ExtendedKey.public_key
    dsimp only
    rw [String.length_append, String.length_append, hlx, hly]
    rfl
  · show (ExtendedKey.public_key k false).data.take 2 = _
    unfold ExtendedKey.public_key
    dsimp only
    rw [String.data_append, String.data_append, List.append_assoc]
    exact List.take_left' rfl

/-- C6 witness: the amended theorem applied to the key with private key 1,
whose point is the base point (both coordinates exceed `2^252`). -/
theorem c6_public_key_format_witness :
    ((2:Int)^252 ≤ keyOne.derivedPoint.x ∧ (2:Int)^252 ≤ keyOne.derivedPoint.y)
    ∧ ((keyOne.public_key true).length = 66
       ∧ (keyOne.public_key true).data.take 2
         = (if keyOne.derivedPoint.y.tmod 2 ≠ 0 then ['0', '3'] else ['0', '2'])
       ∧ (keyOne.public_key false).length = 130
       ∧ (keyOne.public_key false).data.take 2 = ['0', '4']) :=
  ⟨⟨by decide, by decide⟩, c6_public_key_format keyOne (by decide) (by decide)⟩

/-- C7 counterexample: `invert`'s final reduction is `modulo(x, None)` — i.e.
modulo the fixed field prime, not modulo the requested modulus — so with
`n = 2, m = 5` (coprime, `n` nonzero mod `m`) the Bezout coefficient `-2`
comes back as `p - 2` and `(2 * invert(2, Some 5)) mod 5 = 2 ≠ 1`. -/
theorem c7_invert_counterexample :
    Int.gcd 2 5 = 1 ∧ (2 : Int) % 5 ≠ 0
    ∧ (2 * Point.invert 2 (some 5)) % 5 ≠ 1 := by
  decide

/-- C7 amended: the extended-Euclid back-substitution is as claimed, and the
inverse property holds for the modulus the final reduction actually uses —
the field prime `p` (the default `None` modulus): for every `n` coprime to
`p`, `(n * invert(n, Some p)) mod p = 1`.  For other moduli the misplaced
final reduction breaks the property whenever the Bezout coefficient is
negative. -/
theorem c7_invert_mod_field_prime (n : Int)
    (h : Int.gcd n Curve.secp256k1.p = 1) :
    (n * Point.invert n (some Curve.secp256k1.p)) % Curve.secp256k1.p = 1 := by
  have hppos := p_pos
  unfold Point.invert
  simp only [Option.getD_some]
  rw [modulo_eq_emod n Curve.secp256k1.p hppos, modulo_none_eq_emod]
  have ha : 0 ≤ n % Curve.secp256k1.p := Int.emod_nonneg n hppos.ne'
  obtain ⟨hbez, hg⟩ := egcdAux_bezout ((n % Curve.secp256k1.p).toNat + 1)
    (n % Curve.secp256k1.p) Curve.secp256k1.p ha hppos.le (by omega)
  rw [gcd_emod_left n Curve.secp256k1.p hppos.ne', h] at hg
  rw [hg] at hbez
  show (n * ((Point.extended_euclid (n % Curve.secp256k1.p) Curve.secp256k1.p).2.1
    % Curve.secp256k1.p)) % Curve.secp256k1.p = 1
  show (n * ((egcdAux ((n % Curve.secp256k1.p).toNat + 1) (n % Curve.secp256k1.p)
    Curve.secp256k1.p).2.1 % Curve.secp256k1.p)) % Curve.secp256k1.p = 1
  have h1 : n % Curve.secp256k1.p = n - Curve.secp256k1.p * (n / Curve.secp256k1.p) :=
    Int.emod_def n Curve.secp256k1.p
  have h2 : (egcdAux ((n % Curve.secp256k1.p).toNat + 1) (n % Curve.secp256k1.p)
      Curve.secp256k1.p).2.1 % Curve.secp256k1.p
      = (egcdAux ((n % Curve.secp256k1.p).toNat + 1) (n % Curve.secp256k1.p)
        Curve.secp256k1.p).2.1
      - Curve.secp256k1.p * ((egcdAux ((n % Curve.secp256k1.p).toNat + 1)
        (n % Curve.secp256k1.p) Curve.secp256k1.p).2.1 / Curve.secp256k1.p) :=
    Int.emod_def _ _
  have hkey : n * ((egcdAux ((n % Curve.secp256k1.p).toNat + 1) (n % Curve.secp256k1.p)
      Curve.secp256k1.p).2.1 % Curve.secp256k1.p)
      = 1 + Curve.secp256k1.p * ((n / Curve.secp256k1.p)
          * (egcdAux ((n % Curve.secp256k1.p).toNat + 1) (n % Curve.secp256k1.p)
            Curve.secp256k1.p).2.1
        - (egcdAux ((n % Curve.secp256k1.p).toNat + 1) (n % Curve.secp256k1.p)
            Curve.secp256k1.p).2.2
        - n * ((egcdAux ((n % Curve.secp256k1.p).toNat + 1) (n % Curve.secp256k1.p)
            Curve.secp256k1.p).2.1 / Curve.secp256k1.p)) := by
    linear_combination n * h2 + hbez
      - (egcdAux ((n % Curve.secp256k1.p).toNat + 1) (n % Curve.secp256k1.p)
          Curve.secp256k1.p).2.1 * h1
  rw [hkey, Int.add_mul_emod_self_left]
  exact Int.emod_eq_of_lt (by norm_num) (by norm_num [Curve.secp256k1])

/-- C7 witness: the amended theorem applied at `n = 2` over the field
prime. -/
theorem c7_invert_mod_field_prime_witness :
    Int.gcd 2 Curve.secp256k1.p = 1
    ∧ (2 * Point.invert 2 (some Curve.secp256k1.p)) % Curve.secp256k1.p = 1 :=
  ⟨by decide, c7_invert_mod_field_prime 2 (by decide)⟩

/-- C8: for every point on the curve `y² = x³ + 7` (coordinates in range,
both nonzero — nonzeroness is mathematically implied by curve membership,
since `7` is a quadratic nonresidue and `-7` a cubic nonresidue modulo `p`,
but is assumed here because this development does not formalize the primality of
`p`), `add(P, identity) = P`, `add(identity, P) = P`, and
`add(P, P) = double(P)`. -/
theorem c8_group_identities (P : Point) (_hc : P.OnCurve)
    (hx : P.x ≠ 0) (hy : P.y ≠ 0) :
    P.add Point.zero = P ∧ Point.zero.add P = P ∧ P.add P = P.double := by
  refine ⟨?_, ?_, ?_⟩
  · unfold Point.add
    dsimp only
    rw [if_neg (by push_neg; exact ⟨hx, hy⟩),
      if_pos (Or.inl (show Point.zero.x = 0 from rfl))]
  · unfold Point.add
    dsimp only
    rw [if_pos (Or.inl (show Point.zero.x = 0 from rfl))]
  · unfold Point.add
    dsimp only
    rw [if_neg (by push_neg; exact ⟨hx, hy⟩), if_neg (by push_neg; exact ⟨hx, hy⟩),
      if_pos ⟨rfl, rfl⟩]

/-- C8 witness: the identities at the secp256k1 base point, which is on the
curve with nonzero coordinates. -/
theorem c8_group_identities_witness :
    Point.secp256k1_base_point.OnCurve
    ∧ Point.secp256k1_base_point.x ≠ 0
    ∧ Point.secp256k1_base_point.y ≠ 0
    ∧ (Point.secp256k1_base_point.add Point.zero = Point.secp256k1_base_point
       ∧ Point.zero.add Point.secp256k1_base_point = Point.secp256k1_base_point
       ∧ Point.secp256k1_base_point.add Point.secp256k1_base_point
         = Point.secp256k1_base_point.double) :=
  ⟨by decide, by decide, by decide,
   c8_group_identities Point.secp256k1_base_point (by decide) (by decide) (by decide)⟩

/-- C9: whenever `derive` actually returns a key, the private key is exactly
32 bytes and the reduced scalar `(parse256(IL) + k_par) mod r` is at least
`2^248` (a shorter big-endian encoding would make the `[..32]` slice panic,
so `derive` is partial at the public interface). -/
theorem c9_derive_returns_only_large_scalars (o : Oracles) (k : ExtendedKey)
    (cn : ChildNumber) (k' : ExtendedKey) (h : Bip32.derive o k cn = some k') :
    k'.private_key.length = 32
    ∧ ∃ s : Int, Bip32.deriveScalar o k cn = some s ∧ (2:Int)^248 ≤ s := by
  obtain ⟨-, -, -, h32, s, hsc, -, h248, -, -⟩ := derive_some_shape o k cn k' h
  exact ⟨h32, s, hsc, h248⟩

/-- C9 witness: a concrete derivation (HMAC oracle with `IL = 2^248`, parent
private key 1) that returns, with reduced scalar `2^248 + 1`. -/
theorem c9_derive_returns_only_large_scalars_witness :
    Bip32.derive oracle248 keyOne ⟨true, 0⟩ = some keyOneChild0
    ∧ (keyOneChild0.private_key.length = 32
       ∧ ∃ s : Int, Bip32.deriveScalar oracle248 keyOne ⟨true, 0⟩ = some s
         ∧ (2:Int)^248 ≤ s) :=
  ⟨by decide,
   c9_derive_returns_only_large_scalars oracle248 keyOne ⟨true, 0⟩ keyOneChild0 (by decide)⟩

/-- C10: for a hardened last step with raw index `i < 2^31`, the 4-byte
childIndex field of the serialization payload (bytes 9..12) is the big-endian
encoding of `i` itself — top bit clear — and the step stored on the path by
`derive` keeps the raw caller index (the hardened flag is ORed in only for
the HMAC input). -/
theorem c10_hardened_index_serialized_raw (o : Oracles) (k k' : ExtendedKey)
    (i : Nat) (v : Version) (pl : List Nat)
    (hi : i < 2^31)
    (hd : Bip32.derive o k ⟨true, i⟩ = some k')
    (hp : k'.to_base58_payload v = some pl) :
    (pl.drop 9).take 4 = be32 i
    ∧ (pl.drop 9).take 4 = [i / 2^24 % 256, i / 2^16 % 256, i / 2^8 % 256, i % 256]
    ∧ i / 2^24 % 256 < 128
    ∧ k'.path.child_numbers.getLast? = some ⟨true, i⟩ := by
  obtain ⟨-, hcn, hfp, -, -⟩ := derive_some_shape o k ⟨true, i⟩ k' hd
  have hlast : k'.path.child_numbers.getLast? = some ⟨true, i⟩ := by
    rw [hcn]
    exact List.getLast?_concat _
  obtain ⟨mat, hpl⟩ := payload_shape k' v pl hp ⟨true, i⟩ hlast
  have hvb : (v.to_be_bytes).length = 4 := by cases v <;> rfl
  have hassoc : pl = (v.to_be_bytes ++ [k'.path.depth % 256] ++ k'.finger_print)
      ++ (be32 i ++ (k'.chain_code ++ mat)) := by
    rw [hpl]
    simp [List.append_assoc]
  have hdrop : pl.drop 9 = be32 i ++ (k'.chain_code ++ mat) := by
    rw [hassoc]
    apply List.drop_left'
    simp [hvb, hfp]
  have htake : (pl.drop 9).take 4 = be32 i := by
    rw [hdrop]
    exact List.take_left' rfl
  refine ⟨htake, by rw [htake]; rfl, ?_, hlast⟩
  omega

/-- C10 witness: a concrete derivation at hardened index 5 and its payload
under the mainnet private version. -/
theorem c10_hardened_index_serialized_raw_witness :
    (5 < 2^31
     ∧ Bip32.derive oracle248 keyOne ⟨true, 5⟩ = some keyOneChild5
     ∧ keyOneChild5.to_base58_payload Version.Private = some keyOneChild5Payload)
    ∧ ((keyOneChild5Payload.drop 9).take 4 = be32 5
       ∧ (keyOneChild5Payload.drop 9).take 4 = [0, 0, 0, 5]
       ∧ 5 / 2^24 % 256 < 128
       ∧ keyOneChild5.path.child_numbers.getLast? = some ⟨true, 5⟩) :=
  ⟨⟨by decide, by decide, by decide⟩,
   c10_hardened_index_serialized_raw oracle248 keyOne keyOneChild5 5 Version.Private
     keyOneChild5Payload (by decide) (by decide) (by decide)⟩

end HDW
